import Mathlib

/-!
# Verification of the `lemonsauce` colour-solid core

A shallow embedding, over exact rationals, of the geometric/optimization core
of the `lemonsauce` repository:

* `lemonsauce/solidtools/solid.py` — `ColourSolid` (curve normalisation,
  wavelength pooling, incremental hull growth, simplex queries, the
  boundary-spectrum LP setup, `colour`),
* `lemonsauce/solidtools/geom.py` — `lower_simplex_order`,
  `remove_duplicates`, `implicit_line`,
* `lemonsauce/solidtools/slicer.py` — `slice_solid`.

numpy 1-D arrays are modelled as `List ℚ`, 2-D arrays as `List (List ℚ)`
(lists of rows).  Calls into scipy (`ConvexHull`, `linprog`) are external:
hull output is modelled by an abstract `HullData` record carrying scipy's
documented guarantees as hypotheses, the pruning step `compress` is a
function parameter, and the LP is embedded up to the assembled problem
that would be handed to the solver.  Python exceptions are modelled with
`Except String`.
-/

namespace Lemonsauce

/-- Elementwise sum of two equal-length vectors (numpy `a + b`). -/
def vecAdd (a b : List ℚ) : List ℚ := List.zipWith (· + ·) a b

/-- Scalar multiple of a vector (numpy `c * a`). -/
def scaleQ (c : ℚ) (v : List ℚ) : List ℚ := v.map (fun x => c * x)

/-- Dot product of two vectors (numpy `dot` for 1-D arguments). -/
def dotQ : List ℚ → List ℚ → ℚ
  | a :: as, b :: bs => a * b + dotQ as bs
  | _, _ => 0

/-- Column `i` sum of a row-major matrix (numpy `sum(rows[:, i])`). -/
def colSum (rows : List (List ℚ)) (i : ℕ) : ℚ :=
  (rows.map (fun r => r.getD i 0)).sum

/-- Normalise each of the `D` columns of `rows` to sum to one
(`ColourSolid.__init__`: `self.base_curves[:, i] /= sum(self.base_curves[:, i])`). -/
def normalise (D : ℕ) (rows : List (List ℚ)) : List (List ℚ) :=
  rows.map (fun r => (List.range D).map (fun i => r.getD i 0 / colSum rows i))

/-- The pooling loop of `ColourSolid.__init__`, after the first row has been
loaded into the accumulator `cur` (`current_total`): whenever some channel of
the accumulator exceeds the tolerance, commit it and restart from the current
row, otherwise add the current row into it; the final accumulator is always
committed. -/
def poolAux (tol : ℚ) (cur : List ℚ) : List (List ℚ) → List (List ℚ)
  | [] => [cur]
  | r :: rest =>
      if cur.any (fun x => decide (tol < x)) then
        cur :: poolAux tol r rest
      else
        poolAux tol (vecAdd cur r) rest

/-- The pooling step of `ColourSolid.__init__` (`simplified_curves`): the
accumulator starts as row 0 and the loop runs over rows `1..K-1`.
(The Python indexes `base_curves[0, :]` and so cannot run on an empty matrix;
the `[]` case is unreachable for constructed solids.) -/
def pool (tol : ℚ) : List (List ℚ) → List (List ℚ)
  | [] => []
  | r0 :: rest => poolAux tol r0 rest

/-- The elementwise sum of a nonempty group of rows, accumulated left to
right as the pooling loop does. -/
def blockSum : List (List ℚ) → List ℚ
  | [] => []
  | x :: xs => xs.foldl vecAdd x

/-- `ColourSolid.colour` with `wavelengths=None`: check the reflectance
length against the number of samples `K`, then return the `D` fractional
catches `dot(r, base_curves[:, i])`. -/
def colourCatch (D K : ℕ) (base_curves : List (List ℚ)) (reflectance : List ℚ) :
    Except String (List ℚ) :=
  if reflectance.length ≠ K then
    Except.error "Reflectance should have the same number of entries as the curves"
  else
    Except.ok ((List.range D).map
      (fun i => dotQ reflectance (base_curves.map (fun r => r.getD i 0))))

/-! ## Generic list lemmas -/

theorem getD_map_range {f : ℕ → ℚ} {n i : ℕ} (h : i < n) (d : ℚ) :
    ((List.range n).map f).getD i d = f i := by
  have h' : i < ((List.range n).map f).length := by simpa using h
  rw [List.getD_eq_getElem _ _ h', List.getElem_map, List.getElem_range]

theorem getD_vecAdd {a b : List ℚ} {i : ℕ} (ha : i < a.length) (hb : i < b.length) :
    (vecAdd a b).getD i 0 = a.getD i 0 + b.getD i 0 := by
  rw [List.getD_eq_getElem, List.getD_eq_getElem a _ ha, List.getD_eq_getElem b _ hb]
  · simp [vecAdd]
  · simpa [vecAdd] using ⟨ha, hb⟩

theorem length_vecAdd (a b : List ℚ) : (vecAdd a b).length = min a.length b.length := by
  simp [vecAdd]

theorem sum_map_div (l : List ℚ) (c : ℚ) :
    (l.map (fun x => x / c)).sum = l.sum / c := by
  induction l with
  | nil => simp
  | cons x xs ih => simp [ih, add_div]

theorem dotQ_ones (v : List ℚ) : dotQ (List.replicate v.length 1) v = v.sum := by
  induction v with
  | nil => simp [dotQ]
  | cons x xs ih => simpa [dotQ, List.replicate_succ] using ih

/-! ## Pooling lemmas (claim C2 groundwork) -/

theorem length_mem_normalise (D : ℕ) (rows : List (List ℚ)) :
    ∀ r ∈ normalise D rows, r.length = D := by
  intro r hr
  simp only [normalise, List.mem_map] at hr
  obtain ⟨s, _, rfl⟩ := hr
  simp

theorem colSum_normalise (D : ℕ) (rows : List (List ℚ)) {i : ℕ} (hi : i < D) :
    colSum (normalise D rows) i = colSum rows i / colSum rows i := by
  unfold colSum normalise
  rw [List.map_map]
  have h1 : rows.map ((fun r => r.getD i 0) ∘
        fun r => (List.range D).map fun j => r.getD j 0 / colSum rows j)
      = (rows.map (fun r => r.getD i 0)).map (fun x => x / colSum rows i) := by
    rw [List.map_map]
    refine List.map_congr_left ?_
    intro r _
    simpa [Function.comp] using
      getD_map_range (f := fun j => r.getD j 0 / colSum rows j) hi 0
  rw [h1, sum_map_div]
  rfl

theorem colSum_cons (x : List ℚ) (l : List (List ℚ)) (i : ℕ) :
    colSum (x :: l) i = x.getD i 0 + colSum l i := by
  simp [colSum]

theorem poolAux_cons_pos {tol : ℚ} {cur r : List ℚ} {rest : List (List ℚ)}
    (hc : cur.any (fun x => decide (tol < x)) = true) :
    poolAux tol cur (r :: rest) = cur :: poolAux tol r rest := by
  simp [poolAux, hc]

theorem poolAux_cons_neg {tol : ℚ} {cur r : List ℚ} {rest : List (List ℚ)}
    (hc : cur.any (fun x => decide (tol < x)) = false) :
    poolAux tol cur (r :: rest) = poolAux tol (vecAdd cur r) rest := by
  simp [poolAux, hc]

theorem colSum_poolAux (tol : ℚ) (D i : ℕ) (hi : i < D) :
    ∀ (rest : List (List ℚ)) (cur : List ℚ), cur.length = D →
      (∀ r ∈ rest, r.length = D) →
      colSum (poolAux tol cur rest) i = cur.getD i 0 + colSum rest i := by
  intro rest
  induction rest with
  | nil => intro cur _ _; simp [poolAux, colSum]
  | cons r rest ih =>
      intro cur hcur hrest
      have hr : r.length = D := hrest r (by simp)
      have hrest' : ∀ s ∈ rest, s.length = D := fun s hs => hrest s (by simp [hs])
      cases hc : cur.any (fun x => decide (tol < x)) with
      | true =>
          rw [poolAux_cons_pos hc, colSum_cons, ih r hr hrest', colSum_cons]
      | false =>
          have hlen : (vecAdd cur r).length = D := by
            rw [length_vecAdd, hcur, hr, min_self]
          rw [poolAux_cons_neg hc, ih (vecAdd cur r) hlen hrest',
            getD_vecAdd (by omega) (by omega), colSum_cons]
          ring

theorem colSum_pool (tol : ℚ) (D i : ℕ) (hi : i < D) (rows : List (List ℚ))
    (hne : rows ≠ []) (hlen : ∀ r ∈ rows, r.length = D) :
    colSum (pool tol rows) i = colSum rows i := by
  match rows with
  | [] => exact absurd rfl hne
  | r0 :: rest =>
      have h0 : r0.length = D := hlen r0 (by simp)
      have hrest : ∀ s ∈ rest, s.length = D := fun s hs => hlen s (by simp [hs])
      rw [show pool tol (r0 :: rest) = poolAux tol r0 rest from rfl]
      rw [colSum_poolAux tol D i hi rest r0 h0 hrest, colSum_cons]

theorem poolAux_blocks (tol : ℚ) :
    ∀ (rest : List (List ℚ)) (cur : List ℚ),
      ∃ (b0 : List (List ℚ)) (bs : List (List (List ℚ))),
        rest = b0 ++ bs.flatten ∧ (∀ b ∈ bs, b ≠ []) ∧
        poolAux tol cur rest = (b0.foldl vecAdd cur) :: bs.map blockSum := by
  intro rest
  induction rest with
  | nil => intro cur; exact ⟨[], [], by simp, by simp, by simp [poolAux]⟩
  | cons r rest ih =>
      intro cur
      cases hc : cur.any (fun x => decide (tol < x)) with
      | true =>
          obtain ⟨b0, bs, h1, h2, h3⟩ := ih r
          refine ⟨[], (r :: b0) :: bs, ?_, ?_, ?_⟩
          · simp [h1]
          · intro b hb
            rcases List.mem_cons.mp hb with h | h
            · subst h; simp
            · exact h2 b h
          · rw [poolAux_cons_pos hc, h3]
            simp [blockSum]
      | false =>
          obtain ⟨b0, bs, h1, h2, h3⟩ := ih (vecAdd cur r)
          refine ⟨r :: b0, bs, ?_, h2, ?_⟩
          · simp [h1]
          · rw [poolAux_cons_neg hc, h3]
            simp

theorem pool_blocks (tol : ℚ) (rows : List (List ℚ)) (hne : rows ≠ []) :
    ∃ blocks : List (List (List ℚ)),
      blocks.flatten = rows ∧ (∀ b ∈ blocks, b ≠ []) ∧
      pool tol rows = blocks.map blockSum := by
  match rows with
  | [] => exact absurd rfl hne
  | r0 :: rest =>
      obtain ⟨b0, bs, h1, h2, h3⟩ := poolAux_blocks tol rest r0
      refine ⟨(r0 :: b0) :: bs, ?_, ?_, ?_⟩
      · simp [h1]
      · intro b hb
        rcases List.mem_cons.mp hb with h | h
        · subst h; simp
        · exact h2 b h
      · rw [show pool tol (r0 :: rest) = poolAux tol r0 rest from rfl, h3]
        simp [blockSum]

/-- **C2.** Pooling is sum-preserving: for a nonempty curve matrix with
positive column sums and any tolerance in `(0, 1]`, the pooled points built at
construction sum column-wise to the column sums of the normalised curves,
namely `1` per column; moreover the pooled points are exactly the sums of
consecutive nonempty blocks of the normalised rows taken in input order, so
every input row contributes to exactly one pooled point. -/
theorem pooling_sum_preserving (D : ℕ) (tol : ℚ) (rows : List (List ℚ))
    (htol0 : 0 < tol) (htol1 : tol ≤ 1) (hne : rows ≠ [])
    (hpos : ∀ i < D, 0 < colSum rows i) :
    (∀ i < D, colSum (pool tol (normalise D rows)) i = 1) ∧
    ∃ blocks : List (List (List ℚ)),
      blocks.flatten = normalise D rows ∧ (∀ b ∈ blocks, b ≠ []) ∧
      pool tol (normalise D rows) = blocks.map blockSum := by
  have hne' : normalise D rows ≠ [] := by
    simp only [normalise, ne_eq, List.map_eq_nil_iff]
    exact hne
  constructor
  · intro i hi
    rw [colSum_pool tol D i hi _ hne' (length_mem_normalise D rows)]
    rw [colSum_normalise D rows hi]
    exact div_self (ne_of_gt (hpos i hi))
  · exact pool_blocks tol _ hne'

/-- Witness for C2 at a concrete input: two samples, two channels,
the default tolerance `0.05`. -/
theorem pooling_sum_preserving_witness :
    ((0 : ℚ) < 1/20 ∧ (1/20 : ℚ) ≤ 1 ∧ ([[1, 0], [0, 1]] : List (List ℚ)) ≠ [] ∧
      ∀ i < 2, 0 < colSum [[1, 0], [0, 1]] i) ∧
    ((∀ i < 2, colSum (pool (1/20) (normalise 2 [[1, 0], [0, 1]])) i = 1) ∧
      ∃ blocks : List (List (List ℚ)),
        blocks.flatten = normalise 2 [[1, 0], [0, 1]] ∧ (∀ b ∈ blocks, b ≠ []) ∧
        pool (1/20) (normalise 2 [[1, 0], [0, 1]]) = blocks.map blockSum) :=
  ⟨⟨by norm_num, by norm_num, by simp,
      by intro i hi; interval_cases i <;> norm_num [colSum]⟩,
    pooling_sum_preserving 2 (1/20) [[1, 0], [0, 1]]
      (by norm_num) (by norm_num) (by simp)
      (by intro i hi; interval_cases i <;> norm_num [colSum])⟩

/-! ## Claim C10: the all-ones reflectance maps to the all-ones colour -/

/-- **C10.** For every constructed solid (normalised curves with positive
column sums), `colour` applied to the all-ones reflectance of length equal to
the number of input samples, with no wavelengths argument, returns the
all-ones `D`-vector exactly. -/
theorem colour_of_all_ones (D : ℕ) (rows : List (List ℚ))
    (hpos : ∀ i < D, 0 < colSum rows i) :
    colourCatch D rows.length (normalise D rows) (List.replicate rows.length 1)
      = Except.ok (List.replicate D 1) := by
  unfold colourCatch
  rw [if_neg (by simp)]
  congr 1
  have hcol : ∀ i < D,
      dotQ (List.replicate rows.length 1) ((normalise D rows).map (fun r => r.getD i 0)) = 1 := by
    intro i hi
    have hlen : ((normalise D rows).map (fun r => r.getD i 0)).length = rows.length := by
      simp [normalise]
    have := dotQ_ones ((normalise D rows).map (fun r => r.getD i 0))
    rw [hlen] at this
    rw [this]
    have : ((normalise D rows).map (fun r => r.getD i 0)).sum = colSum (normalise D rows) i := rfl
    rw [this, colSum_normalise D rows hi]
    exact div_self (ne_of_gt (hpos i hi))
  calc (List.range D).map
        (fun i => dotQ (List.replicate rows.length 1)
          ((normalise D rows).map (fun r => r.getD i 0)))
      = (List.range D).map (fun _ => (1 : ℚ)) := by
        refine List.map_congr_left ?_
        intro i hi
        exact hcol i (List.mem_range.mp hi)
    _ = List.replicate D 1 := by
        rw [show (fun _ : ℕ => (1 : ℚ)) = Function.const ℕ (1 : ℚ) from rfl]
        rw [List.map_const, List.length_range]

/-! ## Hull growth (solid.py `extend` / `ColourSolid.calculate`, claim C1) -/

/-- `extend` from solid.py: `concatenate((data, data + point), axis=0)` —
append to the working set the translate of every present point by `point`. -/
def extend (data : List (List ℚ)) (point : List ℚ) : List (List ℚ) :=
  data ++ data.map (fun row => vecAdd row point)

/-- The seeding phase of `ColourSolid.calculate`: start from the single
origin point `zeros((1, n_dims))` and `extend` by each of the first `D`
pooled points in turn. -/
def seedSolid (D : ℕ) (curves : List (List ℚ)) : List (List ℚ) :=
  (curves.take D).foldl extend [List.replicate D 0]

/-- The growth loop of `ColourSolid.calculate` (for `D ≥ 2`): fold the
remaining pooled points, in input order, through `extend` followed by the
hull pruning `compress`.  `compress` and the final
`self._hull_data = ConvexHull(solid_data)` delegate to the external
`scipy.spatial.ConvexHull`, so pruning is a function parameter here and the
embedding returns the final working set that `ConvexHull` is applied to. -/
def calculate (compress : List (List ℚ) → List (List ℚ)) (D : ℕ)
    (curves : List (List ℚ)) : List (List ℚ) :=
  (curves.drop D).foldl (fun s p => compress (extend s p)) (seedSolid D curves)

/-- The vertex of the parallelepiped spanned by the points of `ps` (based at
`z`) selected by the binary digits of `j`: the sum of `z` and those
`ps.getD i []` with bit `i` of `j` set. -/
def bitFold (z : List ℚ) (ps : List (List ℚ)) (j : ℕ) : List ℚ :=
  (List.range ps.length).foldl
    (fun acc i => if j.testBit i then vecAdd acc (ps.getD i []) else acc) z

theorem length_extend (data : List (List ℚ)) (p : List ℚ) :
    (extend data p).length = 2 * data.length := by
  simp [extend]
  ring

theorem length_foldl_extend (ps : List (List ℚ)) :
    ∀ data : List (List ℚ),
      (List.foldl extend data ps).length = data.length * 2 ^ ps.length := by
  induction ps with
  | nil => intro data; simp
  | cons p ps ih =>
      intro data
      rw [List.foldl_cons, ih, length_extend]
      rw [List.length_cons]
      ring

theorem foldl_extend_getD (z : List ℚ) :
    ∀ (ps : List (List ℚ)) (j : ℕ), j < 2 ^ ps.length →
      (List.foldl extend [z] ps).getD j [] = bitFold z ps j := by
  intro ps
  induction ps using List.reverseRecOn with
  | nil =>
      intro j hj
      have hj0 : j = 0 := by simpa using hj
      subst hj0
      simp [bitFold]
  | append_singleton ps p ih =>
      intro j hj
      have hk : (ps ++ [p]).length = ps.length + 1 := by simp
      have hS : (List.foldl extend [z] ps).length = 2 ^ ps.length := by
        rw [length_foldl_extend ps [z]]
        simp
      have hbit : bitFold z (ps ++ [p]) j =
          if j.testBit ps.length then
            vecAdd (bitFold z ps j) ((ps ++ [p]).getD ps.length [])
          else bitFold z ps j := by
        unfold bitFold
        rw [hk, List.range_succ, List.foldl_append, List.foldl_cons, List.foldl_nil]
        have hinner : ∀ (a : List ℚ),
            List.foldl (fun acc i =>
                if j.testBit i then vecAdd acc ((ps ++ [p]).getD i []) else acc) a
              (List.range ps.length)
            = List.foldl (fun acc i =>
                if j.testBit i then vecAdd acc (ps.getD i []) else acc) a
              (List.range ps.length) := by
          intro a
          refine List.foldl_ext _ _ a ?_
          intro b i hi
          have hi' : i < ps.length := List.mem_range.mp hi
          rw [List.getD_append _ _ _ i hi']
        rw [hinner]
      rw [List.foldl_concat]
      by_cases hcase : j < 2 ^ ps.length
      · have hfb : j.testBit ps.length = false := Nat.testBit_lt_two_pow hcase
        rw [hbit, hfb, if_neg (by simp)]
        show ((List.foldl extend [z] ps) ++
            (List.foldl extend [z] ps).map (fun row => vecAdd row p)).getD j []
          = bitFold z ps j
        rw [List.getD_append _ _ _ j (by rw [hS]; exact hcase)]
        exact ih j hcase
      · have hj2 : j - 2 ^ ps.length < 2 ^ ps.length := by
          rw [hk] at hj
          have : 2 ^ (ps.length + 1) = 2 ^ ps.length + 2 ^ ps.length := by ring
          omega
        have hjeq : j = 2 ^ ps.length + (j - 2 ^ ps.length) := by omega
        have htb : j.testBit ps.length = true := by
          rw [hjeq, Nat.testBit_two_pow_add_eq, Nat.testBit_lt_two_pow hj2]
          rfl
        have hbits : ∀ i < ps.length, j.testBit i = (j - 2 ^ ps.length).testBit i := by
          intro i hi
          conv_lhs => rw [hjeq]
          exact Nat.testBit_two_pow_add_gt hi _
        have hbf : bitFold z ps j = bitFold z ps (j - 2 ^ ps.length) := by
          unfold bitFold
          refine List.foldl_ext _ _ z ?_
          intro b i hi
          rw [hbits i (List.mem_range.mp hi)]
        rw [hbit, htb, if_pos rfl]
        show ((List.foldl extend [z] ps) ++
            (List.foldl extend [z] ps).map (fun row => vecAdd row p)).getD j []
          = vecAdd (bitFold z ps j) ((ps ++ [p]).getD ps.length [])
        rw [List.getD_append_right _ _ _ j (by rw [hS]; omega), hS]
        have hmapD : ((List.foldl extend [z] ps).map (fun row => vecAdd row p)).getD
            (j - 2 ^ ps.length) []
            = vecAdd ((List.foldl extend [z] ps).getD (j - 2 ^ ps.length) []) p := by
          have hdef : (List.nil : List ℚ) = vecAdd [] p := rfl
          conv_lhs => rw [hdef]
          rw [List.getD_map]
        rw [hmapD, ih _ hj2, hbf]
        rw [List.getD_append_right _ _ _ ps.length (le_refl _)]
        simp

theorem seedSolid_length (D : ℕ) (curves : List (List ℚ)) (hn : D ≤ curves.length) :
    (seedSolid D curves).length = 2 ^ D := by
  unfold seedSolid
  rw [length_foldl_extend]
  simp [min_eq_left hn]

/-- **C1.** For `D ≥ 2` and at least `D` pooled points: the seeding phase
starts from the origin and doubles the working set `D` times by `extend`,
producing a parallelepiped of exactly `2 ^ D` points whose `j`-th point is
the sum of the first-`D` pooled points selected by the binary digits of `j`;
the growth phase then folds every remaining pooled point, in input order,
through `extend` followed by the convex-hull pruning `compress`, and the
final hull is the convex hull (external) of the resulting working set. -/
theorem hull_growth_parallelepiped (compress : List (List ℚ) → List (List ℚ))
    (D : ℕ) (curves : List (List ℚ)) (hD : 2 ≤ D) (hn : D ≤ curves.length) :
    (seedSolid D curves).length = 2 ^ D ∧
    (∀ j < 2 ^ D, (seedSolid D curves).getD j []
        = bitFold (List.replicate D 0) (curves.take D) j) ∧
    calculate compress D curves
      = (curves.drop D).foldl (fun s p => compress (extend s p)) (seedSolid D curves) ∧
    ∀ c, calculate compress D (curves ++ [c])
        = compress (extend (calculate compress D curves) c) := by
  refine ⟨seedSolid_length D curves hn, ?_, rfl, ?_⟩
  · intro j hj
    have hlen : (curves.take D).length = D := by simp [min_eq_left hn]
    unfold seedSolid
    exact foldl_extend_getD _ (curves.take D) j (by rw [hlen]; exact hj)
  · intro c
    unfold calculate seedSolid
    rw [List.take_append_of_le_length hn, List.drop_append_of_le_length hn,
      List.foldl_concat]

/-- Witness for C1 at a concrete input: `D = 2`, three pooled points,
`compress = id`. -/
theorem hull_growth_parallelepiped_witness :
    (2 ≤ 2 ∧ 2 ≤ ([[1, 0], [0, 1], [1, 1]] : List (List ℚ)).length) ∧
    ((seedSolid 2 [[1, 0], [0, 1], [1, 1]]).length = 2 ^ 2 ∧
      (∀ j < 2 ^ 2, (seedSolid 2 [[1, 0], [0, 1], [1, 1]]).getD j []
          = bitFold (List.replicate 2 0) (([[1, 0], [0, 1], [1, 1]] :
              List (List ℚ)).take 2) j) ∧
      calculate id 2 [[1, 0], [0, 1], [1, 1]]
        = (([[1, 0], [0, 1], [1, 1]] : List (List ℚ)).drop 2).foldl
            (fun s p => id (extend s p)) (seedSolid 2 [[1, 0], [0, 1], [1, 1]]) ∧
      ∀ c, calculate id 2 ([[1, 0], [0, 1], [1, 1]] ++ [c])
          = id (extend (calculate id 2 [[1, 0], [0, 1], [1, 1]]) c)) :=
  ⟨⟨by norm_num, by norm_num⟩,
    hull_growth_parallelepiped id 2 [[1, 0], [0, 1], [1, 1]]
      (by norm_num) (by norm_num)⟩

/-- Witness for C10 at a concrete input: the identity two-channel curves. -/
theorem colour_of_all_ones_witness :
    (∀ i < 2, 0 < colSum [[1, 0], [0, 1]] i) ∧
    colourCatch 2 2 (normalise 2 [[1, 0], [0, 1]]) (List.replicate 2 1)
      = Except.ok (List.replicate 2 1) :=
  ⟨by intro i hi; interval_cases i <;> norm_num [colSum],
    colour_of_all_ones 2 [[1, 0], [0, 1]]
      (by intro i hi; interval_cases i <;> norm_num [colSum])⟩

/-! ## geom.py: simplex combinatorics -/

/-- `lower_simplex_order` from geom.py: convert an `n`-simplex to its `n+1`
component `(n-1)`-simplices by skipping each entry in turn
(`concatenate((simplex[:i], simplex[i+1:]))`). -/
def lower_simplex_order (simplex : List ℕ) : List (List ℕ) :=
  (List.range simplex.length).map
    (fun i => simplex.take i ++ simplex.drop (i + 1))

/-- `simplex_duplicate_key` from geom.py: the sorted contents of a simplex
(`tuple(sorted(simplex))`), the canonical deduplication key under which all
permutations of a simplex are equivalent. -/
def simplex_duplicate_key (simplex : List ℕ) : List ℕ :=
  simplex.mergeSort (fun a b => decide (a ≤ b))

/-- Lexicographic comparison of key tuples: how Python's stable `sorted`
compares the `tuple` values returned by `simplex_duplicate_key`. -/
def lexLe : List ℕ → List ℕ → Bool
  | [], _ => true
  | _ :: _, [] => false
  | a :: as, b :: bs =>
      if a < b then true else if b < a then false else lexLe as bs

/-- The scan inside `remove_duplicates` from geom.py: walk the key-sorted
list, appending each entry whose key differs from the last appended key. -/
def dedupScan (lastKey : List ℕ) : List (List ℕ) → List (List ℕ)
  | [] => []
  | e :: rest =>
      if simplex_duplicate_key e ≠ lastKey then
        e :: dedupScan (simplex_duplicate_key e) rest
      else
        dedupScan lastKey rest

/-- The stable key-sort `s = sorted(simplex_list, key=simplex_duplicate_key)`
inside `remove_duplicates`. -/
def sortByKey (simplex_list : List (List ℕ)) : List (List ℕ) :=
  simplex_list.mergeSort
    (fun a b => lexLe (simplex_duplicate_key a) (simplex_duplicate_key b))

/-- `remove_duplicates` from geom.py: stably sort the simplex list by its
canonical key, keep `s[0]`, then append each later entry whose key differs
from the last kept key.  (The Python indexes `s[0]` and so cannot run on an
empty list; the `[]` case is unreachable from `_simplices`.) -/
def remove_duplicates (simplex_list : List (List ℕ)) : List (List ℕ) :=
  match sortByKey simplex_list with
  | [] => []
  | s0 :: rest => s0 :: dedupScan (simplex_duplicate_key s0) rest

/-- Modelled from the spec (§4.2): deduplication keeps exactly the first
occurrence, in key-sorted order, of each sorted-index canonical form, and
drops every later tuple with the same key. -/
def keepFirstByKey : List (List ℕ) → List (List ℕ)
  | [] => []
  | x :: rest =>
      x :: keepFirstByKey (rest.filter
        (fun y => simplex_duplicate_key y ≠ simplex_duplicate_key x))
termination_by l => l.length
decreasing_by
  simp only [List.length_cons]
  exact Nat.lt_succ_of_le (List.length_filter_le _ _)

/-! ### Properties of the key order -/

theorem lexLe_total : ∀ a b : List ℕ, (lexLe a b || lexLe b a) = true := by
  intro a
  induction a with
  | nil => intro b; simp [lexLe]
  | cons x xs ih =>
      intro b
      cases b with
      | nil => simp [lexLe]
      | cons y ys =>
          by_cases h1 : x < y
          · simp [lexLe, h1]
          · by_cases h2 : y < x
            · simp [lexLe, h1, h2]
            · have hxy : x = y := by omega
              subst hxy
              simpa [lexLe, h1, h2] using ih ys

theorem lexLe_trans :
    ∀ a b c : List ℕ, lexLe a b = true → lexLe b c = true → lexLe a c = true := by
  intro a
  induction a with
  | nil => intro b c _ _; simp [lexLe]
  | cons x xs ih =>
      intro b c hab hbc
      cases b with
      | nil => simp [lexLe] at hab
      | cons y ys =>
          cases c with
          | nil => simp [lexLe] at hbc
          | cons z zs =>
              simp only [lexLe] at hab hbc ⊢
              by_cases h1 : x < y
              · have h2 : ¬ z < y := by
                  intro hzy
                  rw [if_neg (by omega : ¬ y < z), if_pos hzy] at hbc
                  exact Bool.noConfusion hbc
                rw [if_pos (by omega : x < z)]
              · by_cases h2 : y < x
                · simp [if_neg h1, if_pos h2] at hab
                · have hxy : x = y := by omega
                  subst hxy
                  simp only [if_neg h1, if_neg h2] at hab
                  by_cases h3 : x < z
                  · rw [if_pos h3]
                  · by_cases h4 : z < x
                    · simp [if_neg (by omega : ¬ x < z), if_pos h4] at hbc
                    · have hxz : x = z := by omega
                      subst hxz
                      simp only [if_neg h3, if_neg h4] at hbc ⊢
                      exact ih ys zs hab hbc

theorem lexLe_antisymm :
    ∀ a b : List ℕ, lexLe a b = true → lexLe b a = true → a = b := by
  intro a
  induction a with
  | nil =>
      intro b _ hba
      cases b with
      | nil => rfl
      | cons y ys => simp [lexLe] at hba
  | cons x xs ih =>
      intro b hab hba
      cases b with
      | nil => simp [lexLe] at hab
      | cons y ys =>
          simp only [lexLe] at hab hba
          by_cases h1 : x < y
          · simp [if_neg (by omega : ¬ y < x), if_pos h1] at hba
          · by_cases h2 : y < x
            · simp [if_neg h1, if_pos h2] at hab
            · have hxy : x = y := by omega
              subst hxy
              simp only [if_neg h1, if_neg h2] at hab hba
              rw [ih ys hab hba]

/-! ### Properties of `remove_duplicates` -/

theorem mem_simplex_duplicate_key {a : ℕ} {s : List ℕ} :
    a ∈ simplex_duplicate_key s ↔ a ∈ s :=
  (List.mergeSort_perm s _).mem_iff

theorem sortByKey_perm (l : List (List ℕ)) : (sortByKey l).Perm l :=
  List.mergeSort_perm l _

theorem sortByKey_sorted (l : List (List ℕ)) :
    List.Pairwise (fun a b =>
      lexLe (simplex_duplicate_key a) (simplex_duplicate_key b) = true)
      (sortByKey l) := by
  unfold sortByKey
  exact @List.sorted_mergeSort (List ℕ)
    (fun a b => lexLe (simplex_duplicate_key a) (simplex_duplicate_key b))
    (fun a b c hab hbc => lexLe_trans _ _ _ hab hbc)
    (fun a b => lexLe_total _ _) l

theorem dedupScan_cons_ne {k e : List ℕ} {rest : List (List ℕ)}
    (hc : simplex_duplicate_key e ≠ k) :
    dedupScan k (e :: rest)
      = e :: dedupScan (simplex_duplicate_key e) rest := by
  simp [dedupScan, hc]

theorem dedupScan_cons_eq {k e : List ℕ} {rest : List (List ℕ)}
    (hc : simplex_duplicate_key e = k) :
    dedupScan k (e :: rest) = dedupScan k rest := by
  simp [dedupScan, hc]

theorem dedupScan_subset :
    ∀ (rest : List (List ℕ)) (k x : List ℕ), x ∈ dedupScan k rest → x ∈ rest := by
  intro rest
  induction rest with
  | nil => intro k x hx; simp [dedupScan] at hx
  | cons e rest ih =>
      intro k x hx
      by_cases hc : simplex_duplicate_key e ≠ k
      · rw [dedupScan_cons_ne hc] at hx
        rcases List.mem_cons.mp hx with h | h
        · exact List.mem_cons.mpr (Or.inl h)
        · exact List.mem_cons.mpr (Or.inr (ih _ x h))
      · push_neg at hc
        rw [dedupScan_cons_eq hc] at hx
        exact List.mem_cons.mpr (Or.inr (ih _ x hx))

theorem dedupScan_cover :
    ∀ (rest : List (List ℕ)) (k x : List ℕ), x ∈ rest →
      simplex_duplicate_key x = k ∨
        ∃ y ∈ dedupScan k rest,
          simplex_duplicate_key y = simplex_duplicate_key x := by
  intro rest
  induction rest with
  | nil => intro k x hx; simp at hx
  | cons e rest ih =>
      intro k x hx
      by_cases hc : simplex_duplicate_key e ≠ k
      · rw [dedupScan_cons_ne hc]
        rcases List.mem_cons.mp hx with rfl | h
        · exact Or.inr ⟨x, by simp, rfl⟩
        · rcases ih (simplex_duplicate_key e) x h with h1 | ⟨y, hy1, hy2⟩
          · exact Or.inr ⟨e, by simp, h1.symm⟩
          · exact Or.inr ⟨y, List.mem_cons.mpr (Or.inr hy1), hy2⟩
      · push_neg at hc
        rw [dedupScan_cons_eq hc]
        rcases List.mem_cons.mp hx with rfl | h
        · exact Or.inl hc
        · exact ih k x h

theorem dedupScan_good :
    ∀ (rest : List (List ℕ)) (k : List ℕ),
      List.Pairwise (fun a b =>
        lexLe (simplex_duplicate_key a) (simplex_duplicate_key b) = true) rest →
      (∀ x ∈ rest, lexLe k (simplex_duplicate_key x) = true) →
      List.Pairwise (fun a b =>
          simplex_duplicate_key a ≠ simplex_duplicate_key b) (dedupScan k rest) ∧
      ∀ y ∈ dedupScan k rest,
        lexLe k (simplex_duplicate_key y) = true ∧ simplex_duplicate_key y ≠ k := by
  intro rest
  induction rest with
  | nil => intro k _ _; simp [dedupScan]
  | cons e rest ih =>
      intro k hp hk
      have hpe := (List.pairwise_cons.mp hp).1
      have hpr := (List.pairwise_cons.mp hp).2
      have hke : lexLe k (simplex_duplicate_key e) = true := hk e (by simp)
      by_cases hc : simplex_duplicate_key e ≠ k
      · rw [dedupScan_cons_ne hc]
        obtain ⟨ih1, ih2⟩ := ih (simplex_duplicate_key e) hpr hpe
        constructor
        · rw [List.pairwise_cons]
          exact ⟨fun y hy hkey => (ih2 y hy).2 hkey.symm, ih1⟩
        · intro y hy
          rcases List.mem_cons.mp hy with rfl | hy'
          · exact ⟨hke, hc⟩
          · obtain ⟨h1, h2⟩ := ih2 y hy'
            refine ⟨lexLe_trans _ _ _ hke h1, ?_⟩
            intro hkk
            exact hc (lexLe_antisymm _ _ (hkk ▸ h1) hke)
      · push_neg at hc
        rw [dedupScan_cons_eq hc]
        refine ih k hpr ?_
        intro x hx
        exact hc ▸ hpe x hx

theorem filter_ne_key_of_sorted {k : List ℕ} {e : List ℕ} {rest : List (List ℕ)}
    (hpe : ∀ x ∈ rest, lexLe (simplex_duplicate_key e) (simplex_duplicate_key x) = true)
    (hke : lexLe k (simplex_duplicate_key e) = true)
    (hc : simplex_duplicate_key e ≠ k) :
    (rest.filter (fun y => simplex_duplicate_key y ≠ k)).filter
        (fun y => simplex_duplicate_key y ≠ simplex_duplicate_key e)
      = rest.filter (fun y => simplex_duplicate_key y ≠ simplex_duplicate_key e) := by
  rw [List.filter_filter]
  refine List.filter_congr ?_
  intro x hx
  by_cases hxe : simplex_duplicate_key x = simplex_duplicate_key e
  · simp [hxe]
  · have hxk : simplex_duplicate_key x ≠ k := by
      intro hxk
      exact hc (lexLe_antisymm _ _ (hxk ▸ hpe x hx) hke)
    simp [hxe, hxk]

theorem dedupScan_eq_keepFirst :
    ∀ (rest : List (List ℕ)) (k : List ℕ),
      List.Pairwise (fun a b =>
        lexLe (simplex_duplicate_key a) (simplex_duplicate_key b) = true) rest →
      (∀ x ∈ rest, lexLe k (simplex_duplicate_key x) = true) →
      dedupScan k rest
        = keepFirstByKey (rest.filter (fun y => simplex_duplicate_key y ≠ k)) := by
  intro rest
  induction rest with
  | nil => intro k _ _; simp [dedupScan, keepFirstByKey]
  | cons e rest ih =>
      intro k hp hk
      have hpe := (List.pairwise_cons.mp hp).1
      have hpr := (List.pairwise_cons.mp hp).2
      have hke : lexLe k (simplex_duplicate_key e) = true := hk e (by simp)
      by_cases hc : simplex_duplicate_key e ≠ k
      · rw [dedupScan_cons_ne hc]
        rw [show (e :: rest).filter (fun y => simplex_duplicate_key y ≠ k)
              = e :: rest.filter (fun y => simplex_duplicate_key y ≠ k) by
            simp [List.filter_cons, hc]]
        rw [keepFirstByKey]
        rw [filter_ne_key_of_sorted hpe hke hc]
        rw [ih (simplex_duplicate_key e) hpr hpe]
      · push_neg at hc
        rw [dedupScan_cons_eq hc]
        rw [show (e :: rest).filter (fun y => simplex_duplicate_key y ≠ k)
              = rest.filter (fun y => simplex_duplicate_key y ≠ k) by
            simp [List.filter_cons, hc]]
        refine ih k hpr ?_
        intro x hx
        exact hc ▸ hpe x hx

theorem remove_duplicates_of_sort_nil {l : List (List ℕ)}
    (hs : sortByKey l = []) : remove_duplicates l = [] := by
  unfold remove_duplicates
  rw [hs]

theorem remove_duplicates_of_sort_cons {l : List (List ℕ)} {s0 : List ℕ}
    {rest : List (List ℕ)} (hs : sortByKey l = s0 :: rest) :
    remove_duplicates l = s0 :: dedupScan (simplex_duplicate_key s0) rest := by
  unfold remove_duplicates
  rw [hs]

theorem remove_duplicates_eq_keepFirst (l : List (List ℕ)) :
    remove_duplicates l = keepFirstByKey (sortByKey l) := by
  cases hs : sortByKey l with
  | nil => rw [remove_duplicates_of_sort_nil hs, keepFirstByKey]
  | cons s0 rest =>
      have hsort := sortByKey_sorted l
      rw [hs] at hsort
      have h1 := (List.pairwise_cons.mp hsort).1
      have h2 := (List.pairwise_cons.mp hsort).2
      rw [remove_duplicates_of_sort_cons hs, keepFirstByKey,
        dedupScan_eq_keepFirst rest _ h2 h1]

theorem remove_duplicates_subset {l : List (List ℕ)} {x : List ℕ}
    (hx : x ∈ remove_duplicates l) : x ∈ l := by
  refine (sortByKey_perm l).mem_iff.mp ?_
  cases hs : sortByKey l with
  | nil => rw [remove_duplicates_of_sort_nil hs] at hx; simp at hx
  | cons s0 rest =>
      rw [remove_duplicates_of_sort_cons hs] at hx
      rcases List.mem_cons.mp hx with rfl | h
      · simp
      · exact List.mem_cons.mpr (Or.inr (dedupScan_subset rest _ x h))

theorem remove_duplicates_cover {l : List (List ℕ)} {x : List ℕ} (hx : x ∈ l) :
    ∃ y ∈ remove_duplicates l,
      simplex_duplicate_key y = simplex_duplicate_key x := by
  have hx' : x ∈ sortByKey l := (sortByKey_perm l).mem_iff.mpr hx
  cases hs : sortByKey l with
  | nil => rw [hs] at hx'; simp at hx'
  | cons s0 rest =>
      rw [hs] at hx'
      rw [remove_duplicates_of_sort_cons hs]
      rcases List.mem_cons.mp hx' with rfl | h
      · exact ⟨x, by simp, rfl⟩
      · rcases dedupScan_cover rest (simplex_duplicate_key s0) x h with
          h1 | ⟨y, hy1, hy2⟩
        · exact ⟨s0, by simp, h1.symm⟩
        · exact ⟨y, List.mem_cons.mpr (Or.inr hy1), hy2⟩

theorem remove_duplicates_pairwise (l : List (List ℕ)) :
    List.Pairwise (fun a b =>
      simplex_duplicate_key a ≠ simplex_duplicate_key b) (remove_duplicates l) := by
  cases hs : sortByKey l with
  | nil => rw [remove_duplicates_of_sort_nil hs]; simp
  | cons s0 rest =>
      have hsort := sortByKey_sorted l
      rw [hs] at hsort
      have h1 := (List.pairwise_cons.mp hsort).1
      have h2 := (List.pairwise_cons.mp hsort).2
      obtain ⟨hd1, hd2⟩ := dedupScan_good rest (simplex_duplicate_key s0) h2 h1
      rw [remove_duplicates_of_sort_cons hs, List.pairwise_cons]
      exact ⟨fun y hy hkey => (hd2 y hy).2 hkey.symm, hd1⟩

theorem remove_duplicates_ne_nil {l : List (List ℕ)} (hl : l ≠ []) :
    remove_duplicates l ≠ [] := by
  cases hs : sortByKey l with
  | nil =>
      have hp := sortByKey_perm l
      rw [hs] at hp
      exact absurd hp.symm.eq_nil hl
  | cons s0 rest =>
      rw [remove_duplicates_of_sort_cons hs]
      simp

/-! ## The hull model and `ColourSolid.highest_dimension_simplices` -/

/-- The index data of a `scipy.spatial.ConvexHull` result: the size of the
stored point array (`len(hull.points)`), the hull vertex indices
(`hull.vertices`), and the top-dimension facets (`hull.simplices`), each a
list of indices into the point array.  The hull computation itself is
external; scipy's documented guarantees (vertex indices distinct and in
range, facet entries taken from the vertices, facets of size `D` covering
every vertex) enter the theorems as hypotheses. -/
structure HullData where
  npoints : ℕ
  vertices : List ℕ
  simplices : List (List ℕ)

/-- The `points_to_verts` array of `ColourSolid.highest_dimension_simplices`:
`zeros(len(hull.points))` then `points_to_verts[hull.vertices[i]] = i` for
each `i` in order. -/
def points_to_verts (h : HullData) : List ℕ :=
  (List.range h.vertices.length).foldl
    (fun acc i => acc.set (h.vertices.getD i 0) i)
    (List.replicate h.npoints 0)

/-- `ColourSolid.highest_dimension_simplices`: the hull's facets with every
point-array index mapped through `points_to_verts`
(`points_to_verts[hull.simplices]`). -/
def highest_dimension_simplices (h : HullData) : List (List ℕ) :=
  h.simplices.map (List.map (fun v => (points_to_verts h).getD v 0))

theorem length_foldl_set (verts : List ℕ) :
    ∀ (js : List ℕ) (init : List ℕ),
      (js.foldl (fun acc j => acc.set (verts.getD j 0) j) init).length
        = init.length := by
  intro js
  induction js with
  | nil => intro init; rfl
  | cons j js ih =>
      intro init
      rw [List.foldl_cons, ih, List.length_set]

theorem foldl_set_getD (verts : List ℕ) (N : ℕ) (hnodup : verts.Nodup)
    (hbound : ∀ v ∈ verts, v < N) :
    ∀ (k : ℕ), k ≤ verts.length → ∀ i < k,
      ((List.range k).foldl (fun acc j => acc.set (verts.getD j 0) j)
          (List.replicate N 0)).getD (verts.getD i 0) 0 = i := by
  intro k
  induction k with
  | zero => intro _ i hi; omega
  | succ k ih =>
      intro hk i hi
      rw [List.range_succ, List.foldl_append, List.foldl_cons, List.foldl_nil]
      have hklt : k < verts.length := by omega
      have hvk_mem : verts.getD k 0 ∈ verts := by
        rw [List.getD_eq_getElem _ _ hklt]
        exact List.getElem_mem _
      have hlenfold : ((List.range k).foldl
          (fun acc j => acc.set (verts.getD j 0) j)
          (List.replicate N 0)).length = N := by
        rw [length_foldl_set, List.length_replicate]
      by_cases hik : i = k
      · subst hik
        have hvN : verts.getD i 0 < N := hbound _ hvk_mem
        rw [List.getD_eq_getElem _ _ (by rw [List.length_set, hlenfold]; exact hvN)]
        rw [List.getElem_set]
        simp
      · have hilt : i < k := by omega
        have hneq : verts.getD k 0 ≠ verts.getD i 0 := by
          intro heq
          have hi' : i < verts.length := by omega
          rw [List.getD_eq_getElem _ _ hklt, List.getD_eq_getElem _ _ hi'] at heq
          exact hik ((List.Nodup.getElem_inj_iff hnodup).mp heq.symm)
        have hvN : verts.getD i 0 < N :=
          hbound _ (by rw [List.getD_eq_getElem _ _ (by omega : i < verts.length)]
                       exact List.getElem_mem _)
        rw [List.getD_eq_getElem _ _ (by rw [List.length_set, hlenfold]; exact hvN)]
        rw [List.getElem_set, if_neg hneq]
        rw [← List.getD_eq_getElem _ 0 (by rw [hlenfold]; exact hvN)]
        exact ih (by omega) i hilt

theorem points_to_verts_getD (h : HullData) (hnodup : h.vertices.Nodup)
    (hbound : ∀ v ∈ h.vertices, v < h.npoints) {i : ℕ}
    (hi : i < h.vertices.length) :
    (points_to_verts h).getD (h.vertices.getD i 0) 0 = i :=
  foldl_set_getD h.vertices h.npoints hnodup hbound h.vertices.length
    (le_refl _) i hi

theorem points_to_verts_indexOf (h : HullData) (hnodup : h.vertices.Nodup)
    (hbound : ∀ v ∈ h.vertices, v < h.npoints) {v : ℕ} (hv : v ∈ h.vertices) :
    (points_to_verts h).getD v 0 = List.indexOf v h.vertices := by
  have hlt : List.indexOf v h.vertices < h.vertices.length :=
    List.indexOf_lt_length.mpr hv
  have hval : h.vertices.getD (List.indexOf v h.vertices) 0 = v := by
    rw [List.getD_eq_getElem _ _ hlt]
    exact List.getElem_indexOf hlt
  have := points_to_verts_getD h hnodup hbound hlt
  rw [hval] at this
  exact this

/-! ## `ColourSolid._simplices` (claims C3, C4, C5) -/

/-- `ColourSolid._simplices` with `n_dims = D`, for a `D ≥ 2` solid (so that
`self.points` is `hull.points[hull.vertices, :]`, of length
`len(hull.vertices)`).  Branch order, conditions and messages mirror
solid.py; the two `ValueError`s are the spec's `InvalidDimensionError`. -/
def simplicesResult (h : HullData) (D : ℕ) (dimension : ℤ) :
    Except String (List (List ℕ)) :=
  if dimension < -1 then
    Except.error "Dimensionality of simplices must be positive."
  else if dimension = -1 then
    Except.ok [[]]
  else if dimension = 0 then
    Except.ok ((List.range h.vertices.length).map (fun i => [i]))
  else if hge : (D : ℤ) ≤ dimension then
    Except.error "This solid only has simplices of dimension < n_dims."
  else if dimension = (D : ℤ) - 1 then
    Except.ok (highest_dimension_simplices h)
  else
    match simplicesResult h D (dimension + 1) with
    | Except.error e => Except.error e
    | Except.ok simplex_list =>
        Except.ok (remove_duplicates (simplex_list.map lower_simplex_order).flatten)
termination_by ((D : ℤ) - dimension).toNat
decreasing_by omega

/-- A concrete `D = 3` hull for witnesses: a tetrahedron whose four input
points are all hull vertices. -/
def tetraHull : HullData :=
  { npoints := 4
    vertices := [0, 1, 2, 3]
    simplices := [[0, 1, 2], [0, 1, 3], [0, 2, 3], [1, 2, 3]] }

/-- **C3.** For a `D ≥ 2` solid whose hull is computed, `simplices(D-1)` is
exactly the hull's facet list with each point-array index replaced by that
point's position in the hull's vertex list — same list, hence same
cardinality and membership — under scipy's guarantees that the hull vertex
indices are distinct and in range and that facets reference hull
vertices. -/
theorem simplices_top_dimension (h : HullData) (D : ℕ) (hD : 2 ≤ D)
    (hnodup : h.vertices.Nodup)
    (hbound : ∀ v ∈ h.vertices, v < h.npoints)
    (hfacet : ∀ f ∈ h.simplices, ∀ v ∈ f, v ∈ h.vertices) :
    simplicesResult h D ((D : ℤ) - 1)
      = Except.ok (highest_dimension_simplices h) ∧
    highest_dimension_simplices h
      = h.simplices.map (List.map (fun v => List.indexOf v h.vertices)) ∧
    (highest_dimension_simplices h).length = h.simplices.length := by
  refine ⟨?_, ?_, by simp [highest_dimension_simplices]⟩
  · rw [simplicesResult, if_neg (by omega), if_neg (by omega), if_neg (by omega),
      dif_neg (by omega), if_pos rfl]
  · unfold highest_dimension_simplices
    refine List.map_congr_left ?_
    intro f hf
    refine List.map_congr_left ?_
    intro v hv
    exact points_to_verts_indexOf h hnodup hbound (hfacet f hf v hv)

/-- Witness for C3 on the concrete tetrahedron hull. -/
theorem simplices_top_dimension_witness :
    (2 ≤ 3 ∧ tetraHull.vertices.Nodup ∧
      (∀ v ∈ tetraHull.vertices, v < tetraHull.npoints) ∧
      (∀ f ∈ tetraHull.simplices, ∀ v ∈ f, v ∈ tetraHull.vertices)) ∧
    (simplicesResult tetraHull 3 ((3 : ℤ) - 1)
        = Except.ok (highest_dimension_simplices tetraHull) ∧
      highest_dimension_simplices tetraHull
        = tetraHull.simplices.map
            (List.map (fun v => List.indexOf v tetraHull.vertices)) ∧
      (highest_dimension_simplices tetraHull).length
        = tetraHull.simplices.length) :=
  ⟨⟨by norm_num, by decide, by decide, by decide⟩,
    simplices_top_dimension tetraHull 3 (by norm_num) (by decide) (by decide)
      (by decide)⟩

/-- **C5 (counterexample).** On a `D = 3` solid, `simplices(-1)` does not
raise: the code returns a list holding one empty simplex, so the claim that
every negative dimension raises `InvalidDimensionError` fails at `-1`. -/
theorem simplices_neg_one_counterexample :
    simplicesResult tetraHull 3 (-1) = Except.ok [[]] ∧
    ∀ e, simplicesResult tetraHull 3 (-1) ≠ Except.error e := by
  have hok : simplicesResult tetraHull 3 (-1) = Except.ok [[]] := by
    rw [simplicesResult, if_neg (by omega), if_pos rfl]
  exact ⟨hok, fun e he => by rw [hok] at he; exact Except.noConfusion he⟩

/-- **C5 (amended).** `simplices(dimension)` raises `InvalidDimensionError`
for every `dimension < -1` and every `dimension ≥ D`; the boundary case
`dimension = -1` does not raise (it returns a single empty simplex, see the
counterexample). -/
theorem simplices_out_of_range_error (h : HullData) (D : ℕ) (hD : 1 ≤ D)
    (dimension : ℤ) (hdim : dimension < -1 ∨ (D : ℤ) ≤ dimension) :
    ∃ e, simplicesResult h D dimension = Except.error e := by
  rcases hdim with hlt | hge
  · exact ⟨_, by rw [simplicesResult, if_pos hlt]⟩
  · refine ⟨"This solid only has simplices of dimension < n_dims.", ?_⟩
    rw [simplicesResult, if_neg (by omega), if_neg (by omega),
      if_neg (by omega), dif_pos hge]

/-- Witness for the amended C5: `simplices(5)` on a `D = 3` solid errors. -/
theorem simplices_out_of_range_error_witness :
    (1 ≤ 3 ∧ (((5 : ℤ) < -1) ∨ (3 : ℤ) ≤ 5)) ∧
    ∃ e, simplicesResult tetraHull 3 5 = Except.error e :=
  ⟨⟨by norm_num, by norm_num⟩,
    simplices_out_of_range_error tetraHull 3 (by norm_num) 5 (by norm_num)⟩

/-! ## Simplex descent (claim C4) -/

theorem mem_lower_simplex_order {t u : List ℕ} (hu : u ∈ lower_simplex_order t) :
    ∃ i < t.length, u = t.take i ++ t.drop (i + 1) := by
  simp only [lower_simplex_order, List.mem_map, List.mem_range] at hu
  obtain ⟨i, hi, rfl⟩ := hu
  exact ⟨i, hi, rfl⟩

theorem dropNth_mem_lower {t : List ℕ} {i : ℕ} (hi : i < t.length) :
    t.take i ++ t.drop (i + 1) ∈ lower_simplex_order t := by
  simp only [lower_simplex_order, List.mem_map, List.mem_range]
  exact ⟨i, hi, rfl⟩

theorem length_dropNth {t : List ℕ} {i : ℕ} (hi : i < t.length) :
    (t.take i ++ t.drop (i + 1)).length = t.length - 1 := by
  simp only [List.length_append, List.length_take, List.length_drop]
  omega

theorem mem_drop_other {t : List ℕ} {v : ℕ} (hv : v ∈ t) (ht : 2 ≤ t.length) :
    ∃ d < t.length, v ∈ t.take d ++ t.drop (d + 1) := by
  obtain ⟨pos, hpos, hval⟩ := List.mem_iff_getElem.mp hv
  by_cases hp : pos = 0
  · refine ⟨1, by omega, List.mem_append.mpr (Or.inl ?_)⟩
    subst hp
    have h0 : 0 < (t.take 1).length := by
      simp only [List.length_take]
      omega
    have : (t.take 1)[0] = v := by
      rw [List.getElem_take]
      exact hval
    rw [← this]
    exact List.getElem_mem h0
  · refine ⟨0, by omega, List.mem_append.mpr (Or.inr ?_)⟩
    have hlt : pos - 1 < (t.drop 1).length := by
      simp only [List.length_drop]
      omega
    have : (t.drop 1)[pos - 1] = v := by
      rw [List.getElem_drop]
      have : 1 + (pos - 1) = pos := by omega
      simp_rw [this]
      exact hval
    rw [← this]
    exact List.getElem_mem hlt

theorem singleton_of_pair_mem {s : List ℕ} {j : ℕ} (hlen : s.length = 2)
    (hj : j ∈ s) : ∃ i < s.length, [j] = s.take i ++ s.drop (i + 1) := by
  match s, hlen with
  | [a, b], _ =>
      rcases List.mem_pair.mp hj with rfl | rfl
      · exact ⟨1, by norm_num, by simp⟩
      · exact ⟨0, by norm_num, by simp⟩

/-- The invariant carried down the recursive levels of `_simplices`:
for every dimension `dim` with `1 ≤ dim ≤ D-1` (written `dim = D-1-m`), the
level is computed without error, is nonempty, has tuples of size `dim+1`,
and mentions every hull-vertex position. -/
theorem simplices_level (h : HullData) (D : ℕ) (hD : 2 ≤ D)
    (hnodup : h.vertices.Nodup)
    (hbound : ∀ v ∈ h.vertices, v < h.npoints)
    (hflen : ∀ f ∈ h.simplices, f.length = D)
    (hfne : h.simplices ≠ [])
    (hcover : ∀ j < h.vertices.length,
      ∃ f ∈ h.simplices, h.vertices.getD j 0 ∈ f) :
    ∀ (m : ℕ) (dim : ℤ), dim = (D : ℤ) - 1 - m → 1 ≤ dim →
      ∃ L, simplicesResult h D dim = Except.ok L ∧ L ≠ [] ∧
        (∀ t ∈ L, (t.length : ℤ) = dim + 1) ∧
        (∀ j < h.vertices.length, ∃ t ∈ L, j ∈ t) := by
  intro m
  induction m with
  | zero =>
      intro dim hdim h1
      have hdim' : dim = (D : ℤ) - 1 := by omega
      subst hdim'
      refine ⟨highest_dimension_simplices h, ?_, ?_, ?_, ?_⟩
      · rw [simplicesResult, if_neg (by omega), if_neg (by omega),
          if_neg (by omega), dif_neg (by omega), if_pos rfl]
      · simp only [highest_dimension_simplices, ne_eq, List.map_eq_nil_iff]
        exact hfne
      · intro t ht
        obtain ⟨f, hf, rfl⟩ := List.mem_map.mp ht
        have := hflen f hf
        simp only [List.length_map]
        omega
      · intro j hj
        obtain ⟨f, hf, hvf⟩ := hcover j hj
        refine ⟨f.map (fun v => (points_to_verts h).getD v 0),
          List.mem_map_of_mem _ hf, ?_⟩
        refine List.mem_map.mpr ⟨h.vertices.getD j 0, hvf, ?_⟩
        exact points_to_verts_getD h hnodup hbound hj
  | succ m ih =>
      intro dim hdim h1
      obtain ⟨L1, hL1ok, hL1ne, hL1len, hL1cov⟩ :=
        ih (dim + 1) (by omega) (by omega)
      have hstep : simplicesResult h D dim
          = Except.ok (remove_duplicates ((L1.map lower_simplex_order).flatten)) := by
        rw [simplicesResult, if_neg (by omega), if_neg (by omega),
          if_neg (by omega), dif_neg (by omega), if_neg (by omega), hL1ok]
      have hmem_input : ∀ u ∈ (L1.map lower_simplex_order).flatten,
          ∃ s ∈ L1, ∃ i < s.length, u = s.take i ++ s.drop (i + 1) := by
        intro u hu
        obtain ⟨lo, hlo, hulo⟩ := List.mem_flatten.mp hu
        obtain ⟨s, hs, rfl⟩ := List.mem_map.mp hlo
        obtain ⟨i, hi, rfl⟩ := mem_lower_simplex_order hulo
        exact ⟨s, hs, i, hi, rfl⟩
      have hinput_ne : (L1.map lower_simplex_order).flatten ≠ [] := by
        match L1, hL1ne with
        | t :: L1', _ =>
            have htlen : (t.length : ℤ) = dim + 1 + 1 := hL1len t (by simp)
            have h0 : 0 < t.length := by omega
            intro hfl
            have : (t.take 0 ++ t.drop 1) ∈ (((t :: L1').map
                lower_simplex_order).flatten) := by
              refine List.mem_flatten.mpr ⟨lower_simplex_order t, by simp, ?_⟩
              exact dropNth_mem_lower h0
            rw [hfl] at this
            simp at this
      refine ⟨remove_duplicates ((L1.map lower_simplex_order).flatten),
        hstep, remove_duplicates_ne_nil hinput_ne, ?_, ?_⟩
      · intro t ht
        obtain ⟨s, hs, i, hi, rfl⟩ := hmem_input t (remove_duplicates_subset ht)
        have hslen := hL1len s hs
        rw [length_dropNth hi]
        omega
      · intro j hj
        obtain ⟨t1, ht1, hjt1⟩ := hL1cov j hj
        have hlen2 : 2 ≤ t1.length := by
          have := hL1len t1 ht1
          omega
        obtain ⟨d, hd, hmem⟩ := mem_drop_other hjt1 hlen2
        have hu_in : (t1.take d ++ t1.drop (d + 1))
            ∈ (L1.map lower_simplex_order).flatten := by
          refine List.mem_flatten.mpr ⟨lower_simplex_order t1,
            List.mem_map_of_mem _ ht1, ?_⟩
          exact dropNth_mem_lower hd
        obtain ⟨y, hy, hkey⟩ := remove_duplicates_cover hu_in
        refine ⟨y, hy, ?_⟩
        rw [← mem_simplex_duplicate_key, hkey, mem_simplex_duplicate_key]
        exact hmem

theorem simplex_duplicate_key_singleton (i : ℕ) :
    simplex_duplicate_key [i] = [i] := by
  simp [simplex_duplicate_key]

/-- **C4.** For `0 ≤ k < D-1`: every tuple of `simplices(k)` arises from a
tuple of `simplices(k+1)` by dropping one vertex; no two tuples of
`simplices(k)` share the same sorted-index canonical form; and for `k ≥ 1`
the level is exactly the key-sorted face list with only the first occurrence
of each canonical form kept. -/
theorem simplices_faces_and_dedup (h : HullData) (D : ℕ) (hD : 2 ≤ D)
    (hnodup : h.vertices.Nodup)
    (hbound : ∀ v ∈ h.vertices, v < h.npoints)
    (hflen : ∀ f ∈ h.simplices, f.length = D)
    (hfne : h.simplices ≠ [])
    (hcover : ∀ j < h.vertices.length,
      ∃ f ∈ h.simplices, h.vertices.getD j 0 ∈ f) :
    ∀ k : ℕ, k < D - 1 →
      ∃ Lk Lk1,
        simplicesResult h D (k : ℤ) = Except.ok Lk ∧
        simplicesResult h D ((k : ℤ) + 1) = Except.ok Lk1 ∧
        (∀ t ∈ Lk, ∃ s ∈ Lk1, ∃ i < s.length, t = s.take i ++ s.drop (i + 1)) ∧
        List.Pairwise (fun a b =>
          simplex_duplicate_key a ≠ simplex_duplicate_key b) Lk ∧
        (1 ≤ k → Lk = keepFirstByKey (sortByKey
            ((Lk1.map lower_simplex_order).flatten))) := by
  intro k hk
  obtain ⟨L1, hL1ok, hL1ne, hL1len, hL1cov⟩ :=
    simplices_level h D hD hnodup hbound hflen hfne hcover
      (D - 2 - k) ((k : ℤ) + 1) (by omega) (by omega)
  by_cases hk0 : k = 0
  · subst hk0
    refine ⟨(List.range h.vertices.length).map (fun i => [i]), L1, ?_,
      by simpa using hL1ok, ?_, ?_, by omega⟩
    · rw [simplicesResult, if_neg (by omega), if_neg (by omega),
        if_pos (by norm_num : ((0 : ℕ) : ℤ) = 0)]
    · intro t ht
      obtain ⟨j, hj, rfl⟩ := List.mem_map.mp ht
      have hj' : j < h.vertices.length := List.mem_range.mp hj
      obtain ⟨s, hs, hjs⟩ := hL1cov j hj'
      have hslen : s.length = 2 := by
        have := hL1len s hs
        omega
      obtain ⟨i, hi, heq⟩ := singleton_of_pair_mem hslen hjs
      exact ⟨s, hs, i, hi, heq⟩
    · refine List.Pairwise.map _ ?_ (List.pairwise_lt_range h.vertices.length)
      intro a b hab
      rw [simplex_duplicate_key_singleton, simplex_duplicate_key_singleton]
      intro heq
      have : a = b := by
        injection heq
      omega
  · have hk1 : 1 ≤ k := by omega
    have hstep : simplicesResult h D (k : ℤ)
        = Except.ok (remove_duplicates ((L1.map lower_simplex_order).flatten)) := by
      rw [simplicesResult, if_neg (by omega), if_neg (by omega),
        if_neg (by omega), dif_neg (by omega), if_neg (by omega), hL1ok]
    refine ⟨remove_duplicates ((L1.map lower_simplex_order).flatten), L1,
      hstep, hL1ok, ?_, remove_duplicates_pairwise _, fun _ => ?_⟩
    · intro t ht
      have ht' := remove_duplicates_subset ht
      obtain ⟨lo, hlo, hulo⟩ := List.mem_flatten.mp ht'
      obtain ⟨s, hs, rfl⟩ := List.mem_map.mp hlo
      obtain ⟨i, hi, rfl⟩ := mem_lower_simplex_order hulo
      exact ⟨s, hs, i, hi, rfl⟩
    · exact remove_duplicates_eq_keepFirst _

/-- Witness for C4 on the concrete tetrahedron hull. -/
theorem simplices_faces_and_dedup_witness :
    (2 ≤ 3 ∧ tetraHull.vertices.Nodup ∧
      (∀ v ∈ tetraHull.vertices, v < tetraHull.npoints) ∧
      (∀ f ∈ tetraHull.simplices, f.length = 3) ∧
      tetraHull.simplices ≠ [] ∧
      (∀ j < tetraHull.vertices.length,
        ∃ f ∈ tetraHull.simplices, tetraHull.vertices.getD j 0 ∈ f)) ∧
    (∀ k : ℕ, k < 3 - 1 →
      ∃ Lk Lk1,
        simplicesResult tetraHull 3 (k : ℤ) = Except.ok Lk ∧
        simplicesResult tetraHull 3 ((k : ℤ) + 1) = Except.ok Lk1 ∧
        (∀ t ∈ Lk, ∃ s ∈ Lk1, ∃ i < s.length, t = s.take i ++ s.drop (i + 1)) ∧
        List.Pairwise (fun a b =>
          simplex_duplicate_key a ≠ simplex_duplicate_key b) Lk ∧
        (1 ≤ k → Lk = keepFirstByKey (sortByKey
            ((Lk1.map lower_simplex_order).flatten)))) :=
  ⟨⟨by norm_num, by decide, by decide, by decide, by decide, by decide⟩,
    simplices_faces_and_dedup tetraHull 3 (by norm_num) (by decide) (by decide)
      (by decide) (by decide) (by decide)⟩

/-! ## geom.py `implicit_line` (claim C6) -/

/-- The running maximum of the absolute values of a vector. -/
def maxAbs : List ℚ → ℚ
  | [] => 0
  | x :: xs => max |x| (maxAbs xs)

/-- numpy `argmax(abs(r))`: the first index attaining the maximal absolute
value. -/
def argmaxAbs : List ℚ → ℕ
  | [] => 0
  | x :: xs => if maxAbs xs ≤ |x| then 0 else argmaxAbs xs + 1

/-- `r = q - p` in `implicit_line`. -/
def lineR (p q : List ℚ) : List ℚ := List.zipWith (fun y x => y - x) q p

/-- `pivot = argmax(abs(r))` in `implicit_line`. -/
def linePivot (p q : List ℚ) : ℕ := argmaxAbs (lineR p q)

/-- `A = eye(n); A[:, pivot] = -r / r[pivot]` before the pivot row is
removed: row `i` is the `i`-th identity row with entry `pivot` overwritten
by `-r[i]/r[pivot]`. -/
def lineAfull (p q : List ℚ) : List (List ℚ) :=
  (List.range p.length).map (fun i =>
    ((List.range p.length).map (fun j => if i = j then (1 : ℚ) else 0)).set
      (linePivot p q)
      (-((lineR p q).getD i 0) / (lineR p q).getD (linePivot p q) 0))

/-- `A = concatenate((A[:pivot, :], A[pivot+1:, :]))`: the pivot row removed. -/
def lineMatrix (p q : List ℚ) : List (List ℚ) :=
  (lineAfull p q).take (linePivot p q) ++ (lineAfull p q).drop (linePivot p q + 1)

/-- `b = p - (p[pivot] / r[pivot]) * r` before the pivot entry is removed. -/
def lineBfull (p q : List ℚ) : List ℚ :=
  (List.range p.length).map (fun i =>
    p.getD i 0 - (p.getD (linePivot p q) 0 / (lineR p q).getD (linePivot p q) 0)
      * (lineR p q).getD i 0)

/-- `b = concatenate((b[:pivot], b[pivot+1:]))`: the pivot entry removed. -/
def lineVector (p q : List ℚ) : List ℚ :=
  (lineBfull p q).take (linePivot p q) ++ (lineBfull p q).drop (linePivot p q + 1)

/-- `implicit_line` from geom.py over exact rationals.  The two 1-D shape
checks cannot fire for `List ℚ` arguments (always rank 1); the size check
and the `p = q` degeneracy check are kept, with the source's messages. -/
def implicit_line (p q : List ℚ) : Except String (List (List ℚ) × List ℚ) :=
  if q.length ≠ p.length then
    Except.error "p and q should have the same size"
  else if (lineR p q).getD (linePivot p q) 0 = 0 then
    Except.error "p and q do not describe a line, because p=q."
  else
    Except.ok (lineMatrix p q, lineVector p q)

/-- `A x` for a row-major matrix (numpy `dot(A, x)`). -/
def matVec (A : List (List ℚ)) (x : List ℚ) : List ℚ :=
  A.map (fun row => dotQ row x)

theorem maxAbs_ge {r : List ℚ} : ∀ j < r.length, |r.getD j 0| ≤ maxAbs r := by
  induction r with
  | nil => intro j hj; simp at hj
  | cons x xs ih =>
      intro j hj
      cases j with
      | zero => simp [maxAbs]
      | succ j =>
          have := ih j (by simpa using hj)
          simp only [List.getD_cons_succ, maxAbs]
          exact le_trans this (le_max_right _ _)

theorem argmaxAbs_lt_length {r : List ℚ} (hr : r ≠ []) : argmaxAbs r < r.length := by
  induction r with
  | nil => exact absurd rfl hr
  | cons x xs ih =>
      by_cases hc : maxAbs xs ≤ |x|
      · simp [argmaxAbs, hc]
      · have hxs : xs ≠ [] := by
          intro hnil
          subst hnil
          simp [maxAbs] at hc
        simp only [argmaxAbs, hc, if_false, List.length_cons]
        exact Nat.succ_lt_succ (ih hxs)

theorem getD_argmaxAbs {r : List ℚ} (hr : r ≠ []) :
    |r.getD (argmaxAbs r) 0| = maxAbs r := by
  induction r with
  | nil => exact absurd rfl hr
  | cons x xs ih =>
      by_cases hc : maxAbs xs ≤ |x|
      · simp [argmaxAbs, hc, maxAbs, max_eq_left hc]
      · have hxs : xs ≠ [] := by
          intro hnil
          subst hnil
          simp [maxAbs] at hc
        simp only [argmaxAbs, hc, if_false, List.getD_cons_succ, maxAbs]
        rw [ih hxs]
        exact (max_eq_right (le_of_not_le hc)).symm

theorem getD_lineR {p q : List ℚ} (hlen : q.length = p.length) {i : ℕ}
    (hi : i < p.length) :
    (lineR p q).getD i 0 = q.getD i 0 - p.getD i 0 := by
  have hi' : i < (lineR p q).length := by
    simp [lineR, List.length_zipWith, hlen]
    omega
  rw [List.getD_eq_getElem _ _ hi', List.getD_eq_getElem _ _ (by omega : i < q.length),
    List.getD_eq_getElem _ _ hi]
  simp [lineR]

theorem length_lineR {p q : List ℚ} (hlen : q.length = p.length) :
    (lineR p q).length = p.length := by
  simp [lineR, List.length_zipWith, hlen]

theorem lineR_pivot_ne_zero {p q : List ℚ} (hlen : q.length = p.length)
    (hD : 1 ≤ p.length) (hne : p ≠ q) :
    (lineR p q).getD (linePivot p q) 0 ≠ 0 := by
  have hrne : lineR p q ≠ [] := by
    have := length_lineR hlen
    intro hnil
    rw [hnil] at this
    simp at this
    omega
  obtain ⟨j, hj, hjne⟩ : ∃ j < p.length, (lineR p q).getD j 0 ≠ 0 := by
    by_contra hall
    push_neg at hall
    refine hne (List.ext_getElem hlen.symm ?_)
    intro n h1 h2
    have := hall n h1
    rw [getD_lineR hlen h1] at this
    rw [List.getD_eq_getElem _ _ h1, List.getD_eq_getElem _ _ h2] at this
    linarith [sub_eq_zero.mp this]
  have h1 : |(lineR p q).getD j 0| ≤ maxAbs (lineR p q) :=
    maxAbs_ge j (by rw [length_lineR hlen]; exact hj)
  have h2 : 0 < maxAbs (lineR p q) := lt_of_lt_of_le (abs_pos.mpr hjne) h1
  intro h0
  rw [show linePivot p q = argmaxAbs (lineR p q) from rfl] at h0
  rw [← getD_argmaxAbs hrne] at h2
  rw [h0] at h2
  simp at h2

theorem set_map_range {f : ℕ → ℚ} {n pivot : ℕ} (hp : pivot < n) (c : ℚ) :
    ((List.range n).map f).set pivot c
      = (List.range n).map (fun j => if j = pivot then c else f j) := by
  refine List.ext_getElem (by simp) ?_
  intro i h1 h2
  rw [List.getElem_set]
  simp only [List.getElem_map, List.getElem_range]
  by_cases hip : pivot = i
  · subst hip
    simp
  · rw [if_neg hip, if_neg (fun hh => hip hh.symm)]

theorem dotQ_map_range_sum (x : List ℚ) :
    ∀ (n : ℕ) (f : ℕ → ℚ), x.length = n →
      dotQ ((List.range n).map f) x = ∑ j ∈ Finset.range n, f j * x.getD j 0 := by
  induction x with
  | nil =>
      intro n f hn
      simp only [List.length_nil] at hn
      subst hn
      simp [dotQ]
  | cons a xs ih =>
      intro n f hn
      simp only [List.length_cons] at hn
      subst hn
      rw [List.range_succ_eq_map, List.map_cons, List.map_map]
      have hdot : dotQ (f 0 :: List.map (f ∘ Nat.succ) (List.range xs.length))
          (a :: xs)
          = f 0 * a + dotQ (List.map (f ∘ Nat.succ) (List.range xs.length)) xs :=
        rfl
      rw [hdot, ih xs.length (f ∘ Nat.succ) rfl, Finset.sum_range_succ']
      simp only [Function.comp_apply, List.getD_cons_succ, List.getD_cons_zero,
        Nat.succ_eq_add_one]
      ring

theorem sum_delta_pair (n i pivot : ℕ) (hi : i < n) (hp : pivot < n)
    (hip : i ≠ pivot) (c : ℚ) (g : ℕ → ℚ) :
    ∑ j ∈ Finset.range n,
        (if j = pivot then c else if i = j then (1 : ℚ) else 0) * g j
      = g i + c * g pivot := by
  have hcong : ∀ j ∈ Finset.range n,
      (if j = pivot then c else if i = j then (1 : ℚ) else 0) * g j
        = (if j = i then g j else 0) + (if j = pivot then c * g j else 0) := by
    intro j _
    by_cases h1 : j = pivot
    · subst h1
      have hpi : j ≠ i := fun hh => hip hh.symm
      simp [hpi]
    · by_cases h2 : i = j
      · subst h2
        simp [h1]
      · have h2' : j ≠ i := fun hh => h2 hh.symm
        simp [h1, h2, h2']
  rw [Finset.sum_congr rfl hcong, Finset.sum_add_distrib,
    Finset.sum_ite_eq' (Finset.range n) i g,
    Finset.sum_ite_eq' (Finset.range n) pivot (fun j => c * g j),
    if_pos (Finset.mem_range.mpr hi), if_pos (Finset.mem_range.mpr hp)]

theorem dot_eyeRow {x : List ℚ} {n i pivot : ℕ} (hx : x.length = n) (hi : i < n)
    (hp : pivot < n) (hip : i ≠ pivot) (c : ℚ) :
    dotQ (((List.range n).map (fun j => if i = j then (1 : ℚ) else 0)).set pivot c) x
      = x.getD i 0 + c * x.getD pivot 0 := by
  rw [set_map_range hp, dotQ_map_range_sum x n _ hx]
  exact sum_delta_pair n i pivot hi hp hip c (fun j => x.getD j 0)

theorem drop_range_eq {n pivot : ℕ} (hp : pivot < n) :
    (List.range n).drop (pivot + 1)
      = (List.range (n - (pivot + 1))).map (fun j => pivot + 1 + j) := by
  have hn : n = (pivot + 1) + (n - (pivot + 1)) := by omega
  conv_lhs => rw [hn, List.range_add]
  rw [List.drop_append_of_le_length (by simp)]
  have h2 : (List.range (pivot + 1)).drop (pivot + 1) = [] := by simp
  rw [h2, List.nil_append]

theorem takeDrop_map_range_congr {F G : ℕ → ℚ} {n pivot : ℕ} (hp : pivot < n)
    (hFG : ∀ i < n, i ≠ pivot → F i = G i) :
    ((List.range n).map F).take pivot ++ ((List.range n).map F).drop (pivot + 1)
      = ((List.range n).map G).take pivot
        ++ ((List.range n).map G).drop (pivot + 1) := by
  have htake : ∀ H : ℕ → ℚ,
      ((List.range n).map H).take pivot = (List.range pivot).map H := by
    intro H
    rw [← List.map_take, List.take_range, min_eq_left (le_of_lt hp)]
  have hdrop : ∀ H : ℕ → ℚ,
      ((List.range n).map H).drop (pivot + 1)
        = (List.range (n - (pivot + 1))).map (fun j => H (pivot + 1 + j)) := by
    intro H
    rw [← List.map_drop, drop_range_eq hp, List.map_map]
    rfl
  rw [htake, htake, hdrop, hdrop]
  congr 1
  · refine List.map_congr_left ?_
    intro i hi
    have hi' : i < pivot := List.mem_range.mp hi
    exact hFG i (by omega) (by omega)
  · refine List.map_congr_left ?_
    intro j hj
    have hj' : j < n - (pivot + 1) := List.mem_range.mp hj
    exact hFG (pivot + 1 + j) (by omega) (by omega)

/-- **C6.** For same-length vectors `p ≠ q` in dimension `D ≥ 2`,
`implicit_line(p, q)` succeeds with a matrix of exactly `D - 1` rows (the
pivot row, at the first index of largest-magnitude component of `q - p`,
is dropped) and `A·p = b` and `A·q = b` hold exactly. -/
theorem implicit_line_correct (p q : List ℚ) (hlen : q.length = p.length)
    (hD : 2 ≤ p.length) (hne : p ≠ q) :
    ∃ A b, implicit_line p q = Except.ok (A, b) ∧
      A.length = p.length - 1 ∧ b.length = p.length - 1 ∧
      matVec A p = b ∧ matVec A q = b := by
  have hrp := lineR_pivot_ne_zero hlen (by omega) hne
  have hok : implicit_line p q = Except.ok (lineMatrix p q, lineVector p q) := by
    unfold implicit_line
    rw [if_neg (by omega), if_neg hrp]
  have hrne : lineR p q ≠ [] := by
    intro hnil
    have := length_lineR hlen
    rw [hnil] at this
    simp at this
    omega
  have hpivlt : linePivot p q < p.length := by
    have := argmaxAbs_lt_length hrne
    rw [length_lineR hlen] at this
    exact this
  have hAfull_len : (lineAfull p q).length = p.length := by simp [lineAfull]
  have hblen0 : (lineBfull p q).length = p.length := by simp [lineBfull]
  have hMV : ∀ x : List ℚ,
      matVec (lineMatrix p q) x
        = ((List.range p.length).map (fun i =>
              dotQ (((List.range p.length).map
                  (fun j => if i = j then (1 : ℚ) else 0)).set (linePivot p q)
                (-((lineR p q).getD i 0)
                  / (lineR p q).getD (linePivot p q) 0)) x)).take (linePivot p q)
          ++ ((List.range p.length).map (fun i =>
              dotQ (((List.range p.length).map
                  (fun j => if i = j then (1 : ℚ) else 0)).set (linePivot p q)
                (-((lineR p q).getD i 0)
                  / (lineR p q).getD (linePivot p q) 0)) x)).drop
              (linePivot p q + 1) := by
    intro x
    unfold matVec lineMatrix lineAfull
    rw [List.map_append, List.map_take, List.map_drop, List.map_map]
    rfl
  refine ⟨lineMatrix p q, lineVector p q, hok, ?_, ?_, ?_, ?_⟩
  · unfold lineMatrix
    rw [List.length_append, List.length_take, List.length_drop, hAfull_len]
    omega
  · unfold lineVector
    rw [List.length_append, List.length_take, List.length_drop, hblen0]
    omega
  · rw [hMV p]
    unfold lineVector lineBfull
    refine takeDrop_map_range_congr hpivlt ?_
    intro i hi hip
    rw [dot_eyeRow rfl hi hpivlt hip]
    ring
  · rw [hMV q]
    unfold lineVector lineBfull
    refine takeDrop_map_range_congr hpivlt ?_
    intro i hi hip
    have hrp' : q.getD (linePivot p q) 0 - p.getD (linePivot p q) 0 ≠ 0 := by
      rw [← getD_lineR hlen hpivlt]
      exact hrp
    rw [dot_eyeRow hlen hi hpivlt hip]
    rw [getD_lineR hlen hi, getD_lineR hlen hpivlt]
    have hgen : ∀ a b cpv d : ℚ, cpv - d ≠ 0 →
        a + -(a - b) / (cpv - d) * cpv = b - d / (cpv - d) * (a - b) := by
      intro a b cpv d hne0
      field_simp
      ring
    exact hgen _ _ _ _ hrp'

/-- Witness for C6 at a concrete input: `p = (0,0)`, `q = (1,0)`. -/
theorem implicit_line_correct_witness :
    ((([1, 0] : List ℚ).length = ([0, 0] : List ℚ).length)
      ∧ 2 ≤ ([0, 0] : List ℚ).length ∧ ([0, 0] : List ℚ) ≠ [1, 0]) ∧
    ∃ A b, implicit_line [0, 0] [1, 0] = Except.ok (A, b) ∧
      A.length = ([0, 0] : List ℚ).length - 1 ∧
      b.length = ([0, 0] : List ℚ).length - 1 ∧
      matVec A [0, 0] = b ∧ matVec A [1, 0] = b :=
  ⟨⟨by simp, by simp, by simp⟩,
    implicit_line_correct [0, 0] [1, 0] (by simp) (by simp) (by simp)⟩

/-! ## slicer.py `slice_solid` (claims C8, C9) -/

/-- The scalar coordinate used by `slice_solid`: the dot product with the
direction vector normalised by the SUM of its components
(`direction = array(dir) / sum(dir)`; `zs = dot(points, direction)`),
deliberately not the Euclidean norm. -/
def scalarCoord (dir : List ℚ) (pt : List ℚ) : ℚ :=
  dotQ pt (dir.map (fun x => x / dir.sum))

/-- The crossing test of `slice_solid`: `crosser` is set iff `z1 < z < z2`,
or `z1 ≥ z` and `z > z2` (the `else` branch compares only `z > z2`). -/
def crosses (z1 z2 z : ℚ) : Bool :=
  if z1 < z then decide (z < z2) else decide (z > z2)

/-- The interpolated crossing point of `slice_solid`:
`f = abs(z-z1)/abs(z2-z1)`, `p = f*points[i1, :] + (1-f)*points[i0, :]`. -/
def crossPoint (p0 p1 : List ℚ) (z1 z2 z : ℚ) : List ℚ :=
  List.zipWith (· + ·) (scaleQ (|z - z1| / |z2 - z1|) p1)
    (scaleQ (1 - |z - z1| / |z2 - z1|) p0)

/-- `slice_solid` from slicer.py: for each edge, test the crossing condition
on the endpoints' scalar coordinates and append the interpolated crossing
point; output order follows edge order. -/
def slice_solid (points : List (List ℚ)) (edges : List (ℕ × ℕ)) (z : ℚ)
    (dir : List ℚ) : List (List ℚ) :=
  edges.filterMap (fun e =>
    if crosses (scalarCoord dir (points.getD e.1 []))
        (scalarCoord dir (points.getD e.2 [])) z then
      some (crossPoint (points.getD e.1 []) (points.getD e.2 [])
        (scalarCoord dir (points.getD e.1 []))
        (scalarCoord dir (points.getD e.2 [])) z)
    else none)

theorem dotQ_zipWith_add :
    ∀ (u v w : List ℚ), u.length = v.length →
      dotQ (List.zipWith (· + ·) u v) w = dotQ u w + dotQ v w := by
  intro u
  induction u with
  | nil =>
      intro v w hl
      have : v = [] := by
        cases v with
        | nil => rfl
        | cons b v' => simp at hl
      subst this
      simp [dotQ]
  | cons a u' ih =>
      intro v w hl
      cases v with
      | nil => simp at hl
      | cons b v' =>
          cases w with
          | nil => simp [dotQ]
          | cons c w' =>
              simp only [List.zipWith_cons_cons]
              show (a + b) * c + dotQ (List.zipWith (· + ·) u' v') w'
                = (a * c + dotQ u' w') + (b * c + dotQ v' w')
              rw [ih v' w' (by simpa using hl)]
              ring

theorem dotQ_scale (c : ℚ) :
    ∀ (u w : List ℚ), dotQ (scaleQ c u) w = c * dotQ u w := by
  intro u
  induction u with
  | nil => intro w; simp [scaleQ, dotQ]
  | cons a u' ih =>
      intro w
      cases w with
      | nil => simp [scaleQ, dotQ]
      | cons b w' =>
          show c * a * b + dotQ (scaleQ c u') w' = c * (a * b + dotQ u' w')
          rw [ih w']
          ring

theorem dotQ_map_div :
    ∀ (pt dir : List ℚ) (s : ℚ),
      dotQ pt (dir.map (fun x => x / s)) = dotQ pt dir / s := by
  intro pt
  induction pt with
  | nil =>
      intro dir s
      simp [dotQ]
  | cons a pt' ih =>
      intro dir s
      cases dir with
      | nil => simp [dotQ]
      | cons b dir' =>
          show a * (b / s) + dotQ pt' (dir'.map (fun x => x / s))
            = (a * b + dotQ pt' dir') / s
          rw [ih dir' s, add_div]
          ring

theorem scalarCoord_eq_dot_div_sum (dir pt : List ℚ) :
    scalarCoord dir pt = dotQ pt dir / dir.sum :=
  dotQ_map_div pt dir dir.sum

theorem crosses_ratio {z1 z2 z : ℚ} (hcr : crosses z1 z2 z = true) :
    z2 - z1 ≠ 0 ∧ |z - z1| / |z2 - z1| = (z - z1) / (z2 - z1) := by
  unfold crosses at hcr
  by_cases h1 : z1 < z
  · rw [if_pos h1] at hcr
    have h2 : z < z2 := of_decide_eq_true hcr
    constructor
    · intro h0
      have : z2 = z1 := by linarith
      linarith
    · rw [abs_of_pos (by linarith : (0 : ℚ) < z - z1),
        abs_of_pos (by linarith : (0 : ℚ) < z2 - z1)]
  · rw [if_neg h1] at hcr
    have h2 : z2 < z := of_decide_eq_true hcr
    have h3 : z ≤ z1 := le_of_not_lt h1
    constructor
    · intro h0
      have : z2 = z1 := by linarith
      linarith
    · rw [abs_of_nonpos (by linarith : z - z1 ≤ 0),
        abs_of_neg (by linarith : z2 - z1 < 0), neg_div_neg_eq]

/-- **C8 (counterexample).** An edge whose first endpoint lies exactly on
the slicing plane (`z1 = z`) and whose second endpoint lies strictly below
it contributes a point — the endpoint itself — so "edges with an endpoint
exactly at z never contribute" is false. -/
theorem slice_endpoint_on_plane_counterexample :
    scalarCoord [1, 1, 1] [1, 1, 1] = 1 ∧
    slice_solid [[1, 1, 1], [0, 0, 0]] [(0, 1)] 1 [1, 1, 1] = [[1, 1, 1]] := by
  constructor
  · show dotQ [1, 1, 1] ([(1 : ℚ), 1, 1].map (fun x => x / [(1 : ℚ), 1, 1].sum)) = 1
    norm_num [dotQ]
  · show List.filterMap _ [((0 : ℕ), (1 : ℕ))] = [[1, 1, 1]]
    rw [List.filterMap_cons]
    have hz1 : scalarCoord [1, 1, 1] ([[(1 : ℚ), 1, 1], [0, 0, 0]].getD 0 [])
        = 1 := by
      norm_num [scalarCoord, dotQ]
    have hz2 : scalarCoord [1, 1, 1] ([[(1 : ℚ), 1, 1], [0, 0, 0]].getD 1 [])
        = 0 := by
      norm_num [scalarCoord, dotQ]
    simp only [hz1, hz2]
    rw [show crosses 1 0 1 = true by norm_num [crosses]]
    simp only [if_pos rfl]
    norm_num [crossPoint, scaleQ]

/-- **C8 (amended).** An edge contributes a crossing point iff its
endpoints' scalar coordinates satisfy `z1 < z < z2`, or `z2 < z < z1`, or
`z1 = z` with `z2 < z`: strictly-opposite sides as the claim says, except
that an edge whose FIRST endpoint sits exactly at `z` contributes exactly
when its second endpoint is strictly below `z` (edges with the second
endpoint at `z`, or the first at `z` and the second above, never
contribute). -/
theorem slice_crossing_condition (points : List (List ℚ))
    (edges : List (ℕ × ℕ)) (z : ℚ) (dir : List ℚ) :
    slice_solid points edges z dir = edges.filterMap (fun e =>
      if (scalarCoord dir (points.getD e.1 []) < z
            ∧ z < scalarCoord dir (points.getD e.2 []))
          ∨ (scalarCoord dir (points.getD e.2 []) < z
            ∧ z < scalarCoord dir (points.getD e.1 []))
          ∨ (scalarCoord dir (points.getD e.1 []) = z
            ∧ scalarCoord dir (points.getD e.2 []) < z) then
        some (crossPoint (points.getD e.1 []) (points.getD e.2 [])
          (scalarCoord dir (points.getD e.1 []))
          (scalarCoord dir (points.getD e.2 [])) z)
      else none) := by
  unfold slice_solid
  refine List.filterMap_congr ?_
  intro e _
  have hiff : ∀ z1 z2 : ℚ, crosses z1 z2 z = true
      ↔ ((z1 < z ∧ z < z2) ∨ (z2 < z ∧ z < z1) ∨ (z1 = z ∧ z2 < z)) := by
    intro z1 z2
    unfold crosses
    by_cases h1 : z1 < z
    · rw [if_pos h1]
      constructor
      · intro hd
        exact Or.inl ⟨h1, of_decide_eq_true hd⟩
      · intro hd
        rcases hd with ⟨_, hz2⟩ | ⟨_, hz1⟩ | ⟨hz1, _⟩
        · exact decide_eq_true hz2
        · linarith
        · rw [hz1] at h1; linarith
    · rw [if_neg h1]
      constructor
      · intro hd
        have h2 : z2 < z := of_decide_eq_true hd
        rcases lt_or_eq_of_le (le_of_not_lt h1) with hlt | heq
        · exact Or.inr (Or.inl ⟨h2, hlt⟩)
        · exact Or.inr (Or.inr ⟨heq.symm, h2⟩)
      · intro hd
        rcases hd with ⟨hz1, _⟩ | ⟨hz2, _⟩ | ⟨_, hz2⟩
        · exact absurd hz1 h1
        · exact decide_eq_true hz2
        · exact decide_eq_true hz2
  by_cases hc : crosses (scalarCoord dir (points.getD e.1 []))
      (scalarCoord dir (points.getD e.2 [])) z = true
  · rw [if_pos hc, if_pos ((hiff _ _).mp hc)]
  · rw [if_neg hc, if_neg (fun hh => hc ((hiff _ _).mpr hh))]

/-- **C9.** The scalar coordinate of every point is its dot product with the
direction divided by the sum of the direction's components (not its norm);
every returned point is the linear interpolation of its edge's endpoints
with weight `f = (z - z1)/(z2 - z1)`; and, exactly in ℚ, every returned
point's scalar coordinate equals the plane offset `z`. -/
theorem slice_points_on_plane (points : List (List ℚ)) (edges : List (ℕ × ℕ))
    (z : ℚ) (dir : List ℚ)
    (hlen : ∀ pt ∈ points, pt.length = dir.length)
    (hidx : ∀ e ∈ edges, e.1 < points.length ∧ e.2 < points.length) :
    (∀ pt : List ℚ, scalarCoord dir pt = dotQ pt dir / dir.sum) ∧
    ∀ p ∈ slice_solid points edges z dir,
      (∃ e ∈ edges,
        p = List.zipWith (· + ·)
              (scaleQ ((z - scalarCoord dir (points.getD e.1 []))
                  / (scalarCoord dir (points.getD e.2 [])
                    - scalarCoord dir (points.getD e.1 [])))
                (points.getD e.2 []))
              (scaleQ (1 - (z - scalarCoord dir (points.getD e.1 []))
                  / (scalarCoord dir (points.getD e.2 [])
                    - scalarCoord dir (points.getD e.1 [])))
                (points.getD e.1 []))) ∧
      scalarCoord dir p = z := by
  refine ⟨fun pt => scalarCoord_eq_dot_div_sum dir pt, ?_⟩
  intro p hp
  unfold slice_solid at hp
  obtain ⟨e, he, hsome⟩ := List.mem_filterMap.mp hp
  by_cases hc : crosses (scalarCoord dir (points.getD e.1 []))
      (scalarCoord dir (points.getD e.2 [])) z = true
  swap
  · rw [if_neg hc] at hsome
    exact absurd hsome (by simp)
  rw [if_pos hc] at hsome
  have hpval := Option.some.inj hsome
  obtain ⟨hzne, hratio⟩ := crosses_ratio hc
  have hcp : crossPoint (points.getD e.1 []) (points.getD e.2 [])
      (scalarCoord dir (points.getD e.1 []))
      (scalarCoord dir (points.getD e.2 [])) z
      = List.zipWith (· + ·)
          (scaleQ ((z - scalarCoord dir (points.getD e.1 []))
              / (scalarCoord dir (points.getD e.2 [])
                - scalarCoord dir (points.getD e.1 [])))
            (points.getD e.2 []))
          (scaleQ (1 - (z - scalarCoord dir (points.getD e.1 []))
              / (scalarCoord dir (points.getD e.2 [])
                - scalarCoord dir (points.getD e.1 [])))
            (points.getD e.1 [])) := by
    unfold crossPoint
    rw [hratio]
  have hp0len : (points.getD e.1 []).length = dir.length := by
    refine hlen _ ?_
    have := (hidx e he).1
    rw [List.getD_eq_getElem _ _ this]
    exact List.getElem_mem _
  have hp1len : (points.getD e.2 []).length = dir.length := by
    refine hlen _ ?_
    have := (hidx e he).2
    rw [List.getD_eq_getElem _ _ this]
    exact List.getElem_mem _
  refine ⟨⟨e, he, by rw [← hpval, hcp]⟩, ?_⟩
  rw [← hpval, hcp]
  show dotQ (List.zipWith (· + ·) _ _) (dir.map (fun x => x / dir.sum)) = z
  rw [dotQ_zipWith_add _ _ _
      (by simp only [scaleQ, List.length_map]; rw [hp0len, hp1len]),
    dotQ_scale, dotQ_scale]
  show (z - scalarCoord dir (points.getD e.1 []))
        / (scalarCoord dir (points.getD e.2 [])
          - scalarCoord dir (points.getD e.1 []))
        * scalarCoord dir (points.getD e.2 [])
      + (1 - (z - scalarCoord dir (points.getD e.1 []))
          / (scalarCoord dir (points.getD e.2 [])
            - scalarCoord dir (points.getD e.1 [])))
        * scalarCoord dir (points.getD e.1 []) = z
  have hgen : ∀ z1 z2 : ℚ, z2 - z1 ≠ 0 →
      (z - z1) / (z2 - z1) * z2 + (1 - (z - z1) / (z2 - z1)) * z1 = z := by
    intro z1 z2 hne0
    field_simp
    ring
  exact hgen _ _ hzne

/-- Witness for C9 at a concrete input: slicing the unit-cube edge from the
origin to `(1,1,1)` at `z = 1/2`. -/
theorem slice_points_on_plane_witness :
    ((∀ pt ∈ [[(0 : ℚ), 0, 0], [1, 1, 1]], pt.length = ([(1 : ℚ), 1, 1]).length)
      ∧ ∀ e ∈ [((0 : ℕ), (1 : ℕ))], e.1 < 2 ∧ e.2 < 2) ∧
    ((∀ pt : List ℚ, scalarCoord [1, 1, 1] pt = dotQ pt [1, 1, 1] / ([(1 : ℚ), 1, 1]).sum) ∧
      ∀ p ∈ slice_solid [[(0 : ℚ), 0, 0], [1, 1, 1]] [(0, 1)] (1/2) [1, 1, 1],
        (∃ e ∈ [((0 : ℕ), (1 : ℕ))],
          p = List.zipWith (· + ·)
                (scaleQ ((1/2 - scalarCoord [1, 1, 1]
                    ([[(0 : ℚ), 0, 0], [1, 1, 1]].getD e.1 []))
                    / (scalarCoord [1, 1, 1]
                        ([[(0 : ℚ), 0, 0], [1, 1, 1]].getD e.2 [])
                      - scalarCoord [1, 1, 1]
                        ([[(0 : ℚ), 0, 0], [1, 1, 1]].getD e.1 [])))
                  ([[(0 : ℚ), 0, 0], [1, 1, 1]].getD e.2 []))
                (scaleQ (1 - (1/2 - scalarCoord [1, 1, 1]
                    ([[(0 : ℚ), 0, 0], [1, 1, 1]].getD e.1 []))
                    / (scalarCoord [1, 1, 1]
                        ([[(0 : ℚ), 0, 0], [1, 1, 1]].getD e.2 [])
                      - scalarCoord [1, 1, 1]
                        ([[(0 : ℚ), 0, 0], [1, 1, 1]].getD e.1 [])))
                  ([[(0 : ℚ), 0, 0], [1, 1, 1]].getD e.1 []))) ∧
        scalarCoord [1, 1, 1] p = 1/2) :=
  ⟨⟨by simp, by simp⟩,
    slice_points_on_plane [[(0 : ℚ), 0, 0], [1, 1, 1]] [(0, 1)] (1/2) [1, 1, 1]
      (by simp) (by simp)⟩

/-! ## `ColourSolid.boundary_spectrum` (claim C7) -/

/-- The linear program assembled by `boundary_spectrum` and handed to the
external `scipy.optimize.linprog`: objective `c`, box constraints
`A_ub x ≤ b_ub`, and equality constraints `A_eq x = b_eq`.  The solve
itself is external; the embedding stops at the assembled problem. -/
structure LPSetup where
  c : List ℚ
  A_ub : List (List ℚ)
  b_ub : List ℚ
  A_eq : List (List ℚ)
  b_eq : List ℚ

/-- `eye(K)` as a row list. -/
def eyeQ (K : ℕ) : List (List ℚ) :=
  (List.range K).map (fun i =>
    (List.range K).map (fun j => if i = j then (1 : ℚ) else 0))

/-- `ColourSolid.boundary_spectrum` with `n_dims = D` and
`base_n_entries = K`, up to the external `linprog` call: the centre check
(`sum(abs(colour - 0.5)) == 0`) first, the length check next, then the
assembly of `c = -dot(base_curves, colour - 0.5)`,
`A_ub = concatenate((eye(K), -eye(K)))`,
`b_ub = concatenate((ones(K), zeros(K)))`, and the equality constraints
from `implicit_line(0.5*ones(D), colour)` applied to the transposed curve
matrix.  (The `len(colour.shape) != 1` rank check cannot fire for `List ℚ`
arguments, which are always rank 1.) -/
def boundary_spectrum (D K : ℕ) (base_curves : List (List ℚ))
    (colour : List ℚ) : Except String LPSetup :=
  if (colour.map (fun x => |x - 1/2|)).sum = 0 then
    Except.error "Cannot get explicit boundary spectrum for centre of solid."
  else if colour.length ≠ D then
    Except.error "Expected parameter colour to have n_dims entries"
  else
    match implicit_line (List.replicate D (1/2)) colour with
    | Except.error e => Except.error e
    | Except.ok (lcm, lcv) =>
        Except.ok
          { c := base_curves.map
              (fun row => -(dotQ row (colour.map (fun x => x - 1/2))))
            A_ub := eyeQ K ++ (eyeQ K).map (fun row => row.map (fun x => -x))
            b_ub := List.replicate K 1 ++ List.replicate K 0
            A_eq := lcm.map (fun row =>
              base_curves.map (fun crow => dotQ row crow))
            b_eq := lcv }

/-- **C7.** For every solid, calling `boundary_spectrum` with the colour
vector exactly equal to the solid's centre (every component `0.5`) raises
`UndefinedDirectionError` at the very first check, so no LP problem is ever
assembled and the solve is never attempted. -/
theorem boundary_spectrum_centre_error (D K : ℕ)
    (base_curves : List (List ℚ)) :
    boundary_spectrum D K base_curves (List.replicate D (1/2))
      = Except.error "Cannot get explicit boundary spectrum for centre of solid."
    ∧ ∀ s : LPSetup,
        boundary_spectrum D K base_curves (List.replicate D (1/2))
          ≠ Except.ok s := by
  have hzero : ((List.replicate D ((1 : ℚ)/2)).map (fun x => |x - 1/2|)).sum
      = 0 := by
    rw [List.map_replicate]
    norm_num
  have herr : boundary_spectrum D K base_curves (List.replicate D (1/2))
      = Except.error
          "Cannot get explicit boundary spectrum for centre of solid." := by
    unfold boundary_spectrum
    rw [if_pos hzero]
  exact ⟨herr, fun s hs => by rw [herr] at hs; exact Except.noConfusion hs⟩

end Lemonsauce
